import Mathlib

/-!
# Verification of the poker-points-tracker ledger and ranking engine

Shallow embedding of `src/pokerpoint.py`: the JSON persistence layer
(`load_data` / `save_data`), the ledger operations (`register_user`,
`get_points`, `update_points`, `set_points`), the administrative upload
handler, the ranking/rendering loop (`render_table`), and the password gate
(`verify_password`, including a full executable SHA-256).

Machine words are modelled as `Nat` reduced modulo `2 ^ 32` where the Python
code relies on fixed-width arithmetic (only inside SHA-256); Python `int` is
`Int`; Python `dict` is an association list with unique keys kept in insertion
order, which matches CPython's ordered-dict semantics.
-/

namespace PokerPoint

/-! ## Ranking engine (`render_table`, src/pokerpoint.py lines 82-110) -/

/-- A ledger entry as iterated by `data.items()`: `(user_id, points)`. -/
abbrev Entry := String × Int

/-- The highlight a rendered row receives.  In the source this is the inline
`row_style`: `top` is `background-color:#ffff99` (rank 1), `negative` is
`background-color:#ffcccc` (points below zero), `none` is the empty style. -/
inductive Highlight where
  | none
  | top
  | negative
deriving DecidableEq, Repr

/-- One row emitted by the rendering loop of `render_table`: the rank cell,
the user-id cell, the points cell and the row style. -/
structure Row where
  rank : Nat
  user_id : String
  points : Int
  highlight : Highlight
deriving DecidableEq, Repr

/-- Insert an entry into a list that is already sorted by points descending,
in front of the first element whose points do not exceed it.  Helper for
`sortDesc`. -/
def insertDesc (a : Entry) : List Entry → List Entry
  | [] => [a]
  | b :: l => if b.2 ≤ a.2 then a :: b :: l else b :: insertDesc a l

/-- Model of `sorted(data.items(), key=lambda x: x[1], reverse=True)` (line 87).
Python's `sorted` is a stable sort; a stable sort of a list by a key is
uniquely determined by the input, so insertion sort (which is stable) is a
faithful model of Timsort here. -/
def sortDesc : List Entry → List Entry
  | [] => []
  | a :: l => insertDesc a (sortDesc l)

/-- The `for uid, pts in ranked:` loop of `render_table` (lines 90-108),
threading the loop state `prev_pts` (`None` initially), `rank` and `count`,
and emitting one `Row` per entry.  The branch structure mirrors the source:
`count += 1`; `if pts != prev_pts: rank = count; prev_pts = pts`; then the
`rank == 1` / `pts < 0` style chain. -/
def renderTableRows : Option Int → Nat → Nat → List Entry → List Row
  | _, _, _, [] => []
  | prev_pts, rank, count, (uid, pts) :: rest =>
    let count1 := count + 1
    let rank1 := if prev_pts ≠ some pts then count1 else rank
    let prev1 := if prev_pts ≠ some pts then some pts else prev_pts
    let hl : Highlight :=
      if rank1 = 1 then Highlight.top
      else if pts < 0 then Highlight.negative
      else Highlight.none
    ⟨rank1, uid, pts, hl⟩ :: renderTableRows prev1 rank1 count1 rest

/-- Model of `render_table(data)` (lines 82-110): the list of rows the
HTML table contains, in display order.  The surrounding HTML markup carries
no further data. -/
def render_table (data : List Entry) : List Row :=
  renderTableRows Option.none 0 0 (sortDesc data)

/-- The closed-form row that `render_table` is proved to produce for an entry
`e` of the sorted sequence `s`: competition rank `1 + #\x7bstrictly greater
points\x7d`, with the highlight chain evaluated at that rank. -/
def specRow (s : List Entry) (e : Entry) : Row :=
  let rk := 1 + s.countP (fun f => decide (e.2 < f.2))
  ⟨rk, e.1, e.2,
    if rk = 1 then Highlight.top
    else if e.2 < 0 then Highlight.negative
    else Highlight.none⟩

/-! ## Persistence layer (`load_data` / `save_data`, lines 14-41) and the
ledger operations (lines 43-79) -/

/-- A JSON document as produced by `json.load`.  Numbers are restricted to
integers: every number the program itself ever writes is a Python `int`, and
the claims under study only concern integer values. -/
inductive Json where
  | null
  | bool (b : Bool)
  | num (n : Int)
  | str (s : String)
  | arr (elts : List Json)
  | obj (fields : List (String × Json))

/-- The persisted state of `poker_points.json`: the file may be missing, may
hold text that is not valid JSON (so `json.load` raises), or may hold text
that parses to a JSON document `v`.  `json.dump`/`json.load` are modelled at
the level of the parsed document (the JSON text serialization of a document
re-parses to the same document). -/
inductive Persisted where
  | missing
  | invalidText
  | json (v : Json)

/-- Model of `load_data()` (lines 14-22): returns `{}` when the file does not exist,
re-raises the `json.load` parse error when the content is not valid JSON, and
otherwise returns whatever document the file holds (the function performs no
shape validation of its own). -/
def load_data : Persisted → Except String Json
  | Persisted.missing => Except.ok (Json.obj [])
  | Persisted.invalidText => Except.error "JSONDecodeError"
  | Persisted.json v => Except.ok v

/-- Model of `save_data(data)` (lines 36-41): overwrites the file in full with the
JSON serialization of `data`; the old state is irrelevant. -/
def save_data (data : Json) : Persisted :=
  Persisted.json data

/-- Model of `key in data` on a Python dict, over the insertion-ordered association
list that models the dict. -/
def dictMem (d : List (String × Json)) (k : String) : Bool :=
  d.any (fun e => e.1 == k)

/-- Model of `data.get(key)` on a Python dict: the value of the (unique) entry with
the given key, or `none`. -/
def dictGet (d : List (String × Json)) (k : String) : Option Json :=
  (d.find? (fun e => e.1 == k)).map (fun e => e.2)

/-- Model of `data[key] = v` on a Python dict: overwrite in place when the key exists
(keeping its position), append otherwise. -/
def dictSet (d : List (String × Json)) (k : String) (v : Json) : List (String × Json) :=
  if dictMem d k then d.map (fun e => if e.1 == k then (k, v) else e)
  else d ++ [(k, v)]

/-- A ledger (Python dict of `str` to `int`) rendered as JSON object fields. -/
def ledgerFields (L : List (String × Int)) : List (String × Json) :=
  L.map (fun e => (e.1, Json.num e.2))

/-- A ledger as a JSON document. -/
def ledgerJson (L : List (String × Int)) : Json :=
  Json.obj (ledgerFields L)

/-- The persisted state holding exactly the ledger `L`. -/
def persist (L : List (String × Int)) : Persisted :=
  Persisted.json (ledgerJson L)

/-- Pure lookup in a ledger, used to state the claims: the value of the first
entry with the given key. -/
def lookupL (L : List (String × Int)) (k : String) : Option Int :=
  (L.find? (fun e => e.1 == k)).map (fun e => e.2)

/-- Model of `register_user(user_id)` (lines 43-53): load; if the key is present,
return `False` without writing; otherwise insert `0`, save, return `True`.
A loaded document that is not an object would make the Python code fail at
the subscript assignment; this is modelled uniformly as a runtime error (no
claim touches that case). -/
def register_user (st : Persisted) (user_id : String) : Except String (Persisted × Bool) :=
  match load_data st with
  | Except.error e => Except.error e
  | Except.ok (Json.obj d) =>
    if dictMem d user_id then Except.ok (st, false)
    else Except.ok (save_data (Json.obj (dictSet d user_id (Json.num 0))), true)
  | Except.ok _ => Except.error "TypeError"

/-- Model of `get_points(user_id)` (lines 55-61): load; `data.get(user_id)`. -/
def get_points (st : Persisted) (user_id : String) : Except String (Option Json) :=
  match load_data st with
  | Except.error e => Except.error e
  | Except.ok (Json.obj d) => Except.ok (dictGet d user_id)
  | Except.ok _ => Except.error "AttributeError"

/-- Model of `update_points(user_id, delta)` (lines 63-70): load; if the key is
present, `data[user_id] += delta` and save; otherwise do nothing (the state
is returned untouched, no write happens).  `+=` on a non-integer stored value
is a Python runtime error, modelled as `Except.error`. -/
def update_points (st : Persisted) (user_id : String) (delta : Int) : Except String Persisted :=
  match load_data st with
  | Except.error e => Except.error e
  | Except.ok (Json.obj d) =>
    if dictMem d user_id then
      match dictGet d user_id with
      | some (Json.num n) =>
        Except.ok (save_data (Json.obj (dictSet d user_id (Json.num (n + delta)))))
      | _ => Except.error "TypeError"
    else Except.ok st
  | Except.ok _ => Except.error "TypeError"

/-- Model of `set_points(user_id, new_points)` (lines 72-79): load; if the key is
present, `data[user_id] = new_points` and save; otherwise do nothing. -/
def set_points (st : Persisted) (user_id : String) (new_points : Int) : Except String Persisted :=
  match load_data st with
  | Except.error e => Except.error e
  | Except.ok (Json.obj d) =>
    if dictMem d user_id then
      Except.ok (save_data (Json.obj (dictSet d user_id (Json.num new_points))))
    else Except.ok st
  | Except.ok _ => Except.error "TypeError"

/-! ## Administrative upload handler (lines 172-182) -/

/-- An uploaded document: either text that `json.load` rejects, or text that
parses to a JSON document. -/
inductive UploadDoc where
  | invalid
  | parsed (v : Json)

/-- The `if uploaded_file:` handler body (lines 172-182): `json.load` the
upload (a parse failure is caught, an error is shown, and nothing is saved);
if the result `isinstance(new_data, dict)` then `save_data(new_data)` —
no other validation — else show an error and save nothing.  Returns the new
persisted state and whether the upload was accepted. -/
def uploaded_file_handler (st : Persisted) (up : UploadDoc) : Persisted × Bool :=
  match up with
  | UploadDoc.invalid => (st, false)
  | UploadDoc.parsed v =>
    match v with
    | Json.obj _ => (save_data v, true)
    | _ => (st, false)

/-! ## Ledger invariant (claim C8) -/

/-- Whether a JSON value is a (single) integer. -/
def isNum : Json → Bool
  | Json.num _ => true
  | _ => false

/-- The spec's ledger invariant on an object's fields: keys are unique and
non-empty, every stored value is a single integer. -/
def InvDict (d : List (String × Json)) : Prop :=
  (d.map Prod.fst).Nodup ∧ ∀ e ∈ d, e.1 ≠ "" ∧ isNum e.2 = true

/-- The spec's ledger invariant on a persisted state: it holds a JSON object
whose fields satisfy `InvDict`. -/
def Inv (st : Persisted) : Prop :=
  ∃ d, st = Persisted.json (Json.obj d) ∧ InvDict d

/-- Decode a JSON object's fields back into a `str -> int` ledger; `none` if
any value is not an integer.  Used to state the save/load round-trip. -/
def decodeFields : List (String × Json) → Option (List (String × Int))
  | [] => some []
  | (k, Json.num n) :: rest => (decodeFields rest).map (fun L => (k, n) :: L)
  | _ => none

/-- Decode a JSON document back into a ledger, when it is a flat object of
integer values. -/
def decodeLedger : Json → Option (List (String × Int))
  | Json.obj d => decodeFields d
  | _ => none

/-- Pointwise value overwrite in a ledger: every entry keyed `k` gets value
`w`; all other entries are untouched.  The shape `update_points`/`set_points`
are proved to produce. -/
def setL (L : List (String × Int)) (k : String) (w : Int) : List (String × Int) :=
  L.map (fun e => if e.1 == k then (e.1, w) else e)

/-! ## Password gate (`verify_password`, lines 112-125)

`hashlib.sha256(input_pwd.encode('utf-8')).hexdigest()` is embedded as a
full executable SHA-256 (FIPS 180-4) over byte lists, with 32-bit words as
`Nat` reduced modulo `2 ^ 32`. -/

/-- The constant `2 ^ 32`, the word modulus of SHA-256. -/
def M32 : Nat := 4294967296

/-- Right rotation of a 32-bit word. -/
def rotr32 (n x : Nat) : Nat :=
  (x >>> n) ||| ((x <<< (32 - n)) % M32)

/-- SHA-256 `Σ0`. -/
def bigSigma0 (x : Nat) : Nat := rotr32 2 x ^^^ rotr32 13 x ^^^ rotr32 22 x

/-- SHA-256 `Σ1`. -/
def bigSigma1 (x : Nat) : Nat := rotr32 6 x ^^^ rotr32 11 x ^^^ rotr32 25 x

/-- SHA-256 `σ0`. -/
def smallSigma0 (x : Nat) : Nat := rotr32 7 x ^^^ rotr32 18 x ^^^ (x >>> 3)

/-- SHA-256 `σ1`. -/
def smallSigma1 (x : Nat) : Nat := rotr32 17 x ^^^ rotr32 19 x ^^^ (x >>> 10)

/-- SHA-256 `Ch(x,y,z)`; `~x` is complement within 32 bits. -/
def ch32 (x y z : Nat) : Nat := (x &&& y) ^^^ ((x ^^^ 4294967295) &&& z)

/-- SHA-256 `Maj(x,y,z)`. -/
def maj32 (x y z : Nat) : Nat := (x &&& y) ^^^ (x &&& z) ^^^ (y &&& z)

/-- The 64 SHA-256 round constants. -/
def K256 : List Nat :=
  [1116352408, 1899447441, 3049323471, 3921009573, 961987163,
   1508970993, 2453635748, 2870763221, 3624381080, 310598401,
   607225278, 1426881987, 1925078388, 2162078206, 2614888103,
   3248222580, 3835390401, 4022224774, 264347078, 604807628,
   770255983, 1249150122, 1555081692, 1996064986, 2554220882,
   2821834349, 2952996808, 3210313671, 3336571891, 3584528711,
   113926993, 338241895, 666307205, 773529912, 1294757372,
   1396182291, 1695183700, 1986661051, 2177026350, 2456956037,
   2730485921, 2820302411, 3259730800, 3345764771, 3516065817,
   3600352804, 4094571909, 275423344, 430227734, 506948616,
   659060556, 883997877, 958139571, 1322822218, 1537002063,
   1747873779, 1955562222, 2024104815, 2227730452, 2361852424,
   2428436474, 2756734187, 3204031479, 3329325298]

/-- The SHA-256 working state: eight 32-bit words. -/
structure Hash8 where
  a : Nat
  b : Nat
  c : Nat
  d : Nat
  e : Nat
  f : Nat
  g : Nat
  h : Nat

/-- The SHA-256 initial hash value. -/
def H256init : Hash8 :=
  ⟨1779033703, 3144134277, 1013904242, 2773480762,
   1359893119, 2600822924, 528734635, 1541459225⟩

/-- The next word of the message schedule, from the words so far. -/
def nextW (ws : List Nat) : Nat :=
  let n := ws.length
  (smallSigma1 (ws.getD (n - 2) 0) + ws.getD (n - 7) 0 +
   smallSigma0 (ws.getD (n - 15) 0) + ws.getD (n - 16) 0) % M32

/-- Extend the 16 block words by `k` further schedule words. -/
def extendW (ws : List Nat) : Nat → List Nat
  | 0 => ws
  | k + 1 => extendW (ws ++ [nextW ws]) k

/-- One SHA-256 compression round, consuming one `(K, W)` pair. -/
def roundStep (st : Hash8) (kw : Nat × Nat) : Hash8 :=
  let t1 := (st.h + bigSigma1 st.e + ch32 st.e st.f st.g + kw.1 + kw.2) % M32
  let t2 := (bigSigma0 st.a + maj32 st.a st.b st.c) % M32
  ⟨(t1 + t2) % M32, st.a, st.b, st.c, (st.d + t1) % M32, st.e, st.f, st.g⟩

/-- Compress one 16-word block into the running hash. -/
def compressBlock (st : Hash8) (block : List Nat) : Hash8 :=
  let t := (K256.zip (extendW block 48)).foldl roundStep st
  ⟨(st.a + t.a) % M32, (st.b + t.b) % M32, (st.c + t.c) % M32, (st.d + t.d) % M32,
   (st.e + t.e) % M32, (st.f + t.f) % M32, (st.g + t.g) % M32, (st.h + t.h) % M32⟩

/-- Fold the compression function over the padded message, 16 words at a
time (the padded message is always a whole number of 16-word blocks). -/
def sha256Blocks (st : Hash8) : List Nat → Hash8
  | w0 :: w1 :: w2 :: w3 :: w4 :: w5 :: w6 :: w7 ::
    w8 :: w9 :: w10 :: w11 :: w12 :: w13 :: w14 :: w15 :: rest =>
    sha256Blocks
      (compressBlock st [w0, w1, w2, w3, w4, w5, w6, w7, w8, w9, w10, w11, w12, w13, w14, w15])
      rest
  | _ => st

/-- The length value of a message, as 8 big-endian bytes of its bit length. -/
def be64 (n : Nat) : List Nat :=
  [(n >>> 56) % 256, (n >>> 48) % 256, (n >>> 40) % 256, (n >>> 32) % 256,
   (n >>> 24) % 256, (n >>> 16) % 256, (n >>> 8) % 256, n % 256]

/-- SHA-256 padding: append `0x80`, zero bytes up to 56 mod 64, and the
64-bit big-endian bit length. -/
def padMsg (msg : List Nat) : List Nat :=
  msg ++ [0x80] ++ List.replicate ((119 - msg.length % 64) % 64) 0 ++ be64 (8 * msg.length)

/-- Group bytes into big-endian 32-bit words. -/
def toWords : List Nat → List Nat
  | a :: b :: c :: d :: rest => (((a * 256 + b) * 256 + c) * 256 + d) :: toWords rest
  | _ => []

/-- The SHA-256 digest of a byte list, as the eight final hash words. -/
def sha256Words (msg : List Nat) : List Nat :=
  let st := sha256Blocks H256init (toWords (padMsg msg))
  [st.a, st.b, st.c, st.d, st.e, st.f, st.g, st.h]

/-- A lowercase hexadecimal digit. -/
def hexDigitChar (n : Nat) : Char :=
  if n < 10 then Char.ofNat (48 + n) else Char.ofNat (87 + n)

/-- A 32-bit word as 8 lowercase hexadecimal characters. -/
def hexWord32 (w : Nat) : List Char :=
  [hexDigitChar ((w >>> 28) % 16), hexDigitChar ((w >>> 24) % 16),
   hexDigitChar ((w >>> 20) % 16), hexDigitChar ((w >>> 16) % 16),
   hexDigitChar ((w >>> 12) % 16), hexDigitChar ((w >>> 8) % 16),
   hexDigitChar ((w >>> 4) % 16), hexDigitChar (w % 16)]

/-- UTF-8 encoding of one Unicode code point. -/
def utf8Bytes (c : Nat) : List Nat :=
  if c < 0x80 then [c]
  else if c < 0x800 then
    [0xc0 ||| (c >>> 6), 0x80 ||| (c &&& 0x3f)]
  else if c < 0x10000 then
    [0xe0 ||| (c >>> 12), 0x80 ||| ((c >>> 6) &&& 0x3f), 0x80 ||| (c &&& 0x3f)]
  else
    [0xf0 ||| (c >>> 18), 0x80 ||| ((c >>> 12) &&& 0x3f),
     0x80 ||| ((c >>> 6) &&& 0x3f), 0x80 ||| (c &&& 0x3f)]

/-- Model of `s.encode('utf-8')`: the UTF-8 bytes of a string. -/
def utf8Encode (s : String) : List Nat :=
  (s.data.map (fun c => utf8Bytes c.toNat)).foldr (fun a b => a ++ b) []

/-- Model of `hashlib.sha256(s.encode('utf-8')).hexdigest()`: the lowercase
hexadecimal SHA-256 digest of a string. -/
def sha256_hex (s : String) : String :=
  String.mk (((sha256Words (utf8Encode s)).map hexWord32).foldr (fun a b => a ++ b) [])

/-- Model of `verify_password(input_pwd)` (lines 118-125), with the module-level
`ADMIN_PASSWORD_HASH` passed explicitly as the stored hash.  `if not
ADMIN_PASSWORD_HASH: return False` under Python truthiness rejects both an
absent (`None`) and an empty stored hash; otherwise the hex digest of the
input is compared for exact string equality. -/
def verify_password (admin_password_hash : Option String) (input_pwd : String) : Bool :=
  match admin_password_hash with
  | Option.none => false
  | some stored =>
    if stored = "" then false
    else sha256_hex input_pwd == stored

/-! ## Lemmas: the sort used by `render_table` -/

theorem insertDesc_perm (a : Entry) (l : List Entry) :
    List.Perm (insertDesc a l) (a :: l) := by
  induction l with
  | nil => rfl
  | cons b l ih =>
    by_cases hba : b.2 ≤ a.2
    · simp [insertDesc, hba]
    · simp only [insertDesc, if_neg hba]
      exact List.Perm.trans (List.Perm.cons b ih) (List.Perm.swap a b l)

theorem sortDesc_perm (l : List Entry) : List.Perm (sortDesc l) l := by
  induction l with
  | nil => rfl
  | cons a l ih =>
    exact List.Perm.trans (insertDesc_perm a (sortDesc l)) (List.Perm.cons a ih)

theorem insertDesc_pairwise {a : Entry} {l : List Entry}
    (h : l.Pairwise (fun x y => y.2 ≤ x.2)) :
    (insertDesc a l).Pairwise (fun x y => y.2 ≤ x.2) := by
  induction l with
  | nil => simp [insertDesc]
  | cons b l ih =>
    obtain ⟨hb, hl⟩ := List.pairwise_cons.mp h
    by_cases hba : b.2 ≤ a.2
    · simp only [insertDesc, if_pos hba]
      refine List.Pairwise.cons ?_ (List.Pairwise.cons hb hl)
      intro x hx
      rcases List.mem_cons.mp hx with rfl | hx
      · exact hba
      · exact le_trans (hb x hx) hba
    · simp only [insertDesc, if_neg hba]
      refine List.Pairwise.cons ?_ (ih hl)
      intro x hx
      rcases List.mem_cons.mp ((insertDesc_perm a l).mem_iff.mp hx) with rfl | hx
      · exact le_of_lt (lt_of_not_le hba)
      · exact hb x hx

theorem sortDesc_pairwise (l : List Entry) :
    (sortDesc l).Pairwise (fun x y => y.2 ≤ x.2) := by
  induction l with
  | nil => exact List.Pairwise.nil
  | cons a l ih => exact insertDesc_pairwise ih

theorem insertDesc_filter (a : Entry) (l : List Entry) (p : Int) :
    (insertDesc a l).filter (fun e => e.2 == p) = (a :: l).filter (fun e => e.2 == p) := by
  induction l with
  | nil => rfl
  | cons b l ih =>
    by_cases hba : b.2 ≤ a.2
    · simp [insertDesc, hba]
    · simp only [insertDesc, if_neg hba]
      by_cases hap : a.2 = p
      · have hbp : (b.2 == p) = false := by
          have : a.2 < b.2 := lt_of_not_le hba
          simp only [beq_eq_false_iff_ne]
          omega
        simp only [List.filter_cons, hbp]
        rw [ih]
        simp [hap]
      · have hap' : (a.2 == p) = false := by simpa using hap
        simp only [List.filter_cons]
        rw [ih]
        simp [hap', List.filter_cons]

theorem sortDesc_filter (l : List Entry) (p : Int) :
    (sortDesc l).filter (fun e => e.2 == p) = l.filter (fun e => e.2 == p) := by
  induction l with
  | nil => rfl
  | cons a l ih =>
    rw [show sortDesc (a :: l) = insertDesc a (sortDesc l) from rfl,
        insertDesc_filter a (sortDesc l) p]
    simp only [List.filter_cons]
    rw [ih]

/-! ## Lemmas: the rank-assignment loop -/

theorem renderTableRows_cons_ne {prev : Option Int} {pts : Int} (h : prev ≠ some pts)
    (rank count : Nat) (uid : String) (rest : List Entry) :
    renderTableRows prev rank count ((uid, pts) :: rest) =
      ⟨count + 1, uid, pts,
        if count + 1 = 1 then Highlight.top
        else if pts < 0 then Highlight.negative
        else Highlight.none⟩ :: renderTableRows (some pts) (count + 1) (count + 1) rest := by
  simp only [renderTableRows, if_pos h]

theorem renderTableRows_cons_eq {pts : Int}
    (rank count : Nat) (uid : String) (rest : List Entry) :
    renderTableRows (some pts) rank count ((uid, pts) :: rest) =
      ⟨rank, uid, pts,
        if rank = 1 then Highlight.top
        else if pts < 0 then Highlight.negative
        else Highlight.none⟩ :: renderTableRows (some pts) rank (count + 1) rest := by
  have h : ¬ (some pts ≠ some pts) := by simp
  simp only [renderTableRows, if_neg h]

/-- Loop invariant for `renderTableRows`: over a descending-sorted sequence
`s` split as `done ++ rest`, with `count` the number of rows already emitted,
`prev` the points of the last emitted row and `rank` its competition rank,
the remaining rows come out as `specRow s`. -/
theorem renderTableRows_eq_map (s : List Entry)
    (hs : s.Pairwise (fun x y => y.2 ≤ x.2)) :
    ∀ (rest done : List Entry) (prev : Option Int) (rank count : Nat),
      s = done ++ rest →
      count = done.length →
      (prev = Option.none → done = []) →
      (∀ q : Int, prev = some q →
        (∀ e ∈ done, q ≤ e.2) ∧ (∀ e ∈ rest, e.2 ≤ q) ∧
        rank = 1 + s.countP (fun f => decide (q < f.2))) →
      renderTableRows prev rank count rest = rest.map (specRow s) := by
  intro rest
  induction rest with
  | nil => intro done prev rank count _ _ _ _; rfl
  | cons e rest' ih =>
    obtain ⟨uid, pts⟩ := e
    intro done prev rank count hsplit hcount hnone hsome
    have hpw_rest : (((uid, pts) : Entry) :: rest').Pairwise (fun x y => y.2 ≤ x.2) := by
      have h := hs
      rw [hsplit, List.pairwise_append] at h
      exact h.2.1
    have hrest_le : ∀ e ∈ rest', e.2 ≤ pts := (List.pairwise_cons.mp hpw_rest).1
    have hsplit' : s = (done ++ [((uid, pts) : Entry)]) ++ rest' := by
      rw [hsplit, List.append_assoc, List.singleton_append]
    have hcount' : count + 1 = (done ++ [((uid, pts) : Entry)]).length := by
      simp [hcount]
    by_cases hne : prev ≠ some pts
    · -- the `pts != prev_pts` branch: rank := count + 1
      have hdone_gt : ∀ a ∈ done, pts < a.2 := by
        intro a ha
        match prev, hne with
        | Option.none, _ =>
          rw [hnone rfl] at ha
          cases ha
        | some q, hne =>
          obtain ⟨hdle, hrle, _⟩ := hsome q rfl
          have h1 : q ≤ a.2 := hdle a ha
          have h2 : pts ≤ q := hrle (uid, pts) (List.mem_cons_self _ _)
          have h3 : q ≠ pts := fun hqp => hne (by rw [hqp])
          omega
      have hcnt : s.countP (fun f => decide (pts < f.2)) = done.length := by
        rw [hsplit, List.countP_append]
        have h1 : done.countP (fun f => decide (pts < f.2)) = done.length :=
          List.countP_eq_length.mpr (fun a ha => by simpa using hdone_gt a ha)
        have h2 : ((uid, pts) :: rest').countP (fun f => decide (pts < f.2)) = 0 := by
          refine List.countP_eq_zero.mpr ?_
          intro a ha
          rcases List.mem_cons.mp ha with rfl | ha
          · simp
          · have := hrest_le a ha
            simp only [decide_eq_true_eq]
            omega
        rw [h1, h2]
        omega
      rw [renderTableRows_cons_ne hne]
      have hrank_eq : count + 1 = 1 + s.countP (fun f => decide (pts < f.2)) := by
        rw [hcnt, hcount]
        omega
      rw [List.map_cons]
      congr 1
      · show _ = specRow s (uid, pts)
        simp only [specRow]
        rw [← hrank_eq]
      · refine ih (done ++ [(uid, pts)]) (some pts) (count + 1) (count + 1)
          hsplit' hcount' (by simp) ?_
        intro q hq
        injection hq with hq
        subst hq
        refine ⟨?_, hrest_le, hrank_eq⟩
        intro e he
        rcases List.mem_append.mp he with he | he
        · exact le_of_lt (hdone_gt e he)
        · rcases List.mem_singleton.mp he with rfl
          exact le_refl _
    · -- the tie branch: rank and prev_pts are kept
      have hprev : prev = some pts := not_not.mp hne
      subst hprev
      obtain ⟨hdle, hrle, hrank⟩ := hsome pts rfl
      rw [renderTableRows_cons_eq, List.map_cons]
      congr 1
      · show _ = specRow s (uid, pts)
        simp only [specRow]
        rw [← hrank]
      · refine ih (done ++ [(uid, pts)]) (some pts) rank (count + 1)
          hsplit' hcount' (by simp) ?_
        intro q hq
        injection hq with hq
        subst hq
        refine ⟨?_, hrest_le, hrank⟩
        intro e he
        rcases List.mem_append.mp he with he | he
        · exact hdle e he
        · rcases List.mem_singleton.mp he with rfl
          exact le_refl _

/-- Closed form of `render_table`: each entry of the sorted sequence becomes
its `specRow`. -/
theorem render_table_eq (l : List Entry) :
    render_table l = (sortDesc l).map (specRow (sortDesc l)) := by
  refine renderTableRows_eq_map (sortDesc l) (sortDesc_pairwise l) (sortDesc l) []
    Option.none 0 0 rfl rfl (fun _ => rfl) ?_
  intro q hq
  cases hq

/-- In a descending-sorted sequence, the number of entries with strictly
greater points than an occurring value `p` is the index of the first entry
with points `p`. -/
theorem countP_eq_findIdx {s : List Entry} (hs : s.Pairwise (fun x y => y.2 ≤ x.2))
    {p : Int} (hp : ∃ e ∈ s, e.2 = p) :
    s.countP (fun f => decide (p < f.2)) = s.findIdx (fun e => e.2 == p) := by
  induction s with
  | nil =>
    obtain ⟨e, he, _⟩ := hp
    cases he
  | cons a s ih =>
    obtain ⟨hb, hpw⟩ := List.pairwise_cons.mp hs
    by_cases hap : a.2 = p
    · have h0 : s.countP (fun f => decide (p < f.2)) = 0 := by
        refine List.countP_eq_zero.mpr ?_
        intro e he
        have := hb e he
        simp only [decide_eq_true_eq]
        omega
      rw [List.countP_cons, List.findIdx_cons]
      simp [hap, h0]
    · obtain ⟨e, he, hep⟩ := hp
      rcases List.mem_cons.mp he with rfl | he'
      · exact absurd hep hap
      · have hpa : p < a.2 := by
          have h1 : e.2 ≤ a.2 := hb e he'
          omega
        rw [List.countP_cons, List.findIdx_cons]
        have hap' : (a.2 == p) = false := by simpa using hap
        have hpa' : decide (p < a.2) = true := by simpa using hpa
        rw [hap', hpa', ih hpw ⟨e, he', hep⟩]
        simp

/-- C1: For every ledger, the ranking function outputs the entries sorted by
points in descending order with a stable sort (the output rows project to
`sortDesc`, which is a permutation of the input, pairwise descending, and
preserves the input's relative order among entries of equal points), and
assigns competition ranks: a row's rank is the 1-based position of the first
sorted entry carrying its points value, and rows with equal points share a
rank (so points `[10,10,5]` yield ranks `[1,1,3]`). -/
theorem C1_render_table_ranking (l : List Entry) :
    ((render_table l).map (fun r => (r.user_id, r.points)) = sortDesc l)
    ∧ List.Perm (sortDesc l) l
    ∧ (sortDesc l).Pairwise (fun x y => y.2 ≤ x.2)
    ∧ (∀ p : Int, (sortDesc l).filter (fun e => e.2 == p) = l.filter (fun e => e.2 == p))
    ∧ (∀ r ∈ render_table l, r.rank = (sortDesc l).findIdx (fun e => e.2 == r.points) + 1)
    ∧ (∀ r ∈ render_table l, ∀ r' ∈ render_table l,
        r.points = r'.points → r.rank = r'.rank) := by
  refine ⟨?_, sortDesc_perm l, sortDesc_pairwise l, sortDesc_filter l, ?_, ?_⟩
  · rw [render_table_eq, List.map_map]
    have hcomp : ((fun r : Row => (r.user_id, r.points)) ∘ specRow (sortDesc l)) = id := by
      funext e
      rfl
    rw [hcomp, List.map_id]
  · intro r hr
    rw [render_table_eq] at hr
    obtain ⟨e, he, rfl⟩ := List.mem_map.mp hr
    have hpts : (specRow (sortDesc l) e).points = e.2 := rfl
    rw [hpts]
    show 1 + _ = _
    rw [countP_eq_findIdx (sortDesc_pairwise l) ⟨e, he, rfl⟩]
    omega
  · intro r hr r' hr' hpp
    rw [render_table_eq] at hr hr'
    obtain ⟨e, _, rfl⟩ := List.mem_map.mp hr
    obtain ⟨e', _, rfl⟩ := List.mem_map.mp hr'
    have : e.2 = e'.2 := hpp
    show 1 + _ = 1 + _
    rw [this]

/-- C1 witness: the theorem applied to the ledger `{a:10, b:10, c:5}` of the
spec's tie-break example; the rank conjunct is instantiated at the third
output row, whose rank is 3. -/
theorem C1_render_table_ranking_witness :
    ((render_table [("a", 10), ("b", 10), ("c", 5)]).map (fun r => (r.user_id, r.points))
      = sortDesc [("a", 10), ("b", 10), ("c", 5)])
    ∧ (⟨3, "c", 5, Highlight.none⟩ : Row).rank
      = (sortDesc [("a", 10), ("b", 10), ("c", 5)]).findIdx
          (fun e => e.2 == (⟨3, "c", 5, Highlight.none⟩ : Row).points) + 1 :=
  ⟨(C1_render_table_ranking [("a", 10), ("b", 10), ("c", 5)]).1,
   (C1_render_table_ranking [("a", 10), ("b", 10), ("c", 5)]).2.2.2.2.1
     ⟨3, "c", 5, Highlight.none⟩ (by decide)⟩

/-- C2: every output row's highlight is `top` when its rank is 1, otherwise
`negative` when its points are below zero, otherwise `none` (so `top` takes
precedence over `negative`); moreover a rank-1 row with negative points can
occur only when every row's points are negative. -/
theorem C2_highlight_classification (l : List Entry) :
    (∀ r ∈ render_table l,
      r.highlight =
        if r.rank = 1 then Highlight.top
        else if r.points < 0 then Highlight.negative
        else Highlight.none)
    ∧ (∀ r ∈ render_table l, r.rank = 1 → r.points < 0 →
        ∀ r' ∈ render_table l, r'.points < 0) := by
  constructor
  · intro r hr
    rw [render_table_eq] at hr
    obtain ⟨e, _, rfl⟩ := List.mem_map.mp hr
    rfl
  · intro r hr hrank hneg r' hr'
    rw [render_table_eq] at hr hr'
    obtain ⟨e, he, rfl⟩ := List.mem_map.mp hr
    obtain ⟨e', he', rfl⟩ := List.mem_map.mp hr'
    have hcnt : (sortDesc l).countP (fun f => decide (e.2 < f.2)) = 0 := by
      have : (1 : Nat) + (sortDesc l).countP (fun f => decide (e.2 < f.2)) = 1 := hrank
      omega
    have hle : e'.2 ≤ e.2 := by
      have h := List.countP_eq_zero.mp hcnt e' he'
      simp only [decide_eq_true_eq] at h
      omega
    have : e.2 < 0 := hneg
    show e'.2 < 0
    omega

/-- C2 witness: the theorem applied to the spec's all-negative example
`{a:-10, b:-20}`: the rank-1 row `a` is highlighted `top` even though its
points are negative, and its existence forces every row's points below zero
(checked at row `b`). -/
theorem C2_highlight_classification_witness :
    ((⟨1, "a", -10, Highlight.top⟩ : Row).highlight =
      if (⟨1, "a", -10, Highlight.top⟩ : Row).rank = 1 then Highlight.top
      else if (⟨1, "a", -10, Highlight.top⟩ : Row).points < 0 then Highlight.negative
      else Highlight.none)
    ∧ (⟨2, "b", -20, Highlight.negative⟩ : Row).points < 0 :=
  ⟨(C2_highlight_classification [("a", -10), ("b", -20)]).1
      ⟨1, "a", -10, Highlight.top⟩ (by decide),
   (C2_highlight_classification [("a", -10), ("b", -20)]).2
      ⟨1, "a", -10, Highlight.top⟩ (by decide) (by decide) (by decide)
      ⟨2, "b", -20, Highlight.negative⟩ (by decide)⟩

/-! ## Lemmas: dictionaries of ledgers -/

theorem dictMem_ledger_iff (L : List (String × Int)) (uid : String) :
    dictMem (ledgerFields L) uid = true ↔ uid ∈ L.map Prod.fst := by
  induction L with
  | nil => simp [dictMem, ledgerFields]
  | cons a L ih =>
    show (((a.1, Json.num a.2) :: ledgerFields L).any (fun e => e.1 == uid)) = true ↔ _
    rw [List.any_cons, List.map_cons, List.mem_cons]
    by_cases h : a.1 = uid
    · simp [h]
    · have hb : (a.1 == uid) = false := by simpa using h
      rw [hb, Bool.false_or]
      rw [show (List.any (ledgerFields L) fun e => e.1 == uid) = dictMem (ledgerFields L) uid
        from rfl, ih]
      constructor
      · exact Or.inr
      · rintro (rfl | hm)
        · exact absurd rfl h
        · exact hm

theorem dictMem_ledger_false (L : List (String × Int)) (uid : String)
    (h : uid ∉ L.map Prod.fst) : dictMem (ledgerFields L) uid = false := by
  rcases hb : dictMem (ledgerFields L) uid with _ | _
  · rfl
  · exact absurd ((dictMem_ledger_iff L uid).mp hb) h

theorem dictGet_ledger_present (L : List (String × Int)) (uid : String) (p : Int)
    (hnd : (L.map Prod.fst).Nodup) (hmem : (uid, p) ∈ L) :
    dictGet (ledgerFields L) uid = some (Json.num p) := by
  induction L with
  | nil => cases hmem
  | cons a L ih =>
    rw [List.map_cons] at hnd
    obtain ⟨ha, hnd'⟩ := List.nodup_cons.mp hnd
    by_cases hk : a.1 = uid
    · have haeq : a = (uid, p) := by
        rcases List.mem_cons.mp hmem with h | h
        · exact h.symm
        · exact absurd (List.mem_map.mpr ⟨(uid, p), h, hk.symm⟩) ha
      subst haeq
      show (((uid, Json.num p) :: ledgerFields L).find? (fun e => e.1 == uid)).map
          (fun e => e.2) = some (Json.num p)
      rw [List.find?_cons_of_pos _ (by simp)]
      rfl
    · have hmem' : (uid, p) ∈ L := by
        rcases List.mem_cons.mp hmem with h | h
        · exact absurd (congrArg Prod.fst h.symm) hk
        · exact h
      show (((a.1, Json.num a.2) :: ledgerFields L).find? (fun e => e.1 == uid)).map
          (fun e => e.2) = some (Json.num p)
      rw [List.find?_cons_of_neg _ (by simpa using hk)]
      exact ih hnd' hmem'

theorem map_set_ledger (L : List (String × Int)) (uid : String) (w : Int) :
    (ledgerFields L).map (fun e => if e.1 == uid then (uid, Json.num w) else e)
      = ledgerFields (setL L uid w) := by
  simp only [ledgerFields, setL, List.map_map]
  refine List.map_congr_left ?_
  intro e _
  by_cases h : e.1 = uid
  · simp [Function.comp, h]
  · simp [Function.comp, h]

theorem dictSet_ledger_present (L : List (String × Int)) (uid : String) (w : Int)
    (hmem : dictMem (ledgerFields L) uid = true) :
    dictSet (ledgerFields L) uid (Json.num w) = ledgerFields (setL L uid w) := by
  simp only [dictSet, hmem, if_true]
  exact map_set_ledger L uid w

theorem dictSet_ledger_absent (L : List (String × Int)) (uid : String) (w : Int)
    (hmem : dictMem (ledgerFields L) uid = false) :
    dictSet (ledgerFields L) uid (Json.num w) = ledgerFields (L ++ [(uid, w)]) := by
  simp only [dictSet, hmem, Bool.false_eq_true, if_false]
  simp [ledgerFields]

theorem lookupL_absent (L : List (String × Int)) (uid : String)
    (h : uid ∉ L.map Prod.fst) : lookupL L uid = Option.none := by
  induction L with
  | nil => rfl
  | cons a L ih =>
    have hk : (a.1 == uid) = false := by
      simp only [beq_eq_false_iff_ne]
      intro hak
      exact h (by simp [hak.symm])
    have h' : uid ∉ L.map Prod.fst := fun hm => h (by simp [hm])
    show ((a :: L).find? (fun e => e.1 == uid)).map (fun e => e.2) = Option.none
    rw [List.find?_cons_of_neg _ (by simp [hk])]
    exact ih h'

theorem lookupL_append_absent (L : List (String × Int)) (uid : String) (w : Int)
    (h : uid ∉ L.map Prod.fst) : lookupL (L ++ [(uid, w)]) uid = some w := by
  induction L with
  | nil =>
    show (([(uid, w)] : List (String × Int)).find? (fun e => e.1 == uid)).map
        (fun e => e.2) = some w
    rw [List.find?_cons_of_pos _ (by simp)]
    rfl
  | cons a L ih =>
    have hk : (a.1 == uid) = false := by
      simp only [beq_eq_false_iff_ne]
      intro hak
      exact h (by simp [hak.symm])
    have h' : uid ∉ L.map Prod.fst := fun hm => h (by simp [hm])
    show ((a :: (L ++ [(uid, w)])).find? (fun e => e.1 == uid)).map (fun e => e.2) = some w
    rw [List.find?_cons_of_neg _ (by simp [hk])]
    exact ih h'

theorem setL_cons (a : String × Int) (L : List (String × Int)) (uid : String) (w : Int) :
    setL (a :: L) uid w = (if a.1 == uid then (a.1, w) else a) :: setL L uid w := rfl

theorem lookupL_setL_self (L : List (String × Int)) (uid : String) (w : Int)
    (h : uid ∈ L.map Prod.fst) : lookupL (setL L uid w) uid = some w := by
  induction L with
  | nil => cases h
  | cons a L ih =>
    rw [setL_cons]
    by_cases hk : a.1 = uid
    · have hb : (a.1 == uid) = true := by simpa using hk
      rw [hb]
      show (((a.1, w) :: setL L uid w).find? (fun e => e.1 == uid)).map (fun e => e.2) = some w
      rw [List.find?_cons_of_pos _ (by simp [hb])]
      rfl
    · have hb : (a.1 == uid) = false := by simpa using hk
      rw [hb]
      have h' : uid ∈ L.map Prod.fst := by
        rw [List.map_cons, List.mem_cons] at h
        rcases h with h0 | h0
        · exact absurd h0.symm hk
        · exact h0
      show ((a :: setL L uid w).find? (fun e => e.1 == uid)).map (fun e => e.2) = some w
      rw [List.find?_cons_of_neg _ (by simp [hb])]
      exact ih h'

theorem lookupL_setL_other (L : List (String × Int)) (uid k : String) (w : Int)
    (h : k ≠ uid) : lookupL (setL L uid w) k = lookupL L k := by
  induction L with
  | nil => rfl
  | cons a L ih =>
    rw [setL_cons]
    by_cases hau : a.1 = uid
    · have hb : (a.1 == uid) = true := by simpa using hau
      rw [hb]
      have hak : (a.1 == k) = false := by
        simp only [beq_eq_false_iff_ne]
        rw [hau]
        exact fun hk => h hk.symm
      show (((a.1, w) :: setL L uid w).find? (fun e => e.1 == k)).map (fun e => e.2)
          = ((a :: L).find? (fun e => e.1 == k)).map (fun e => e.2)
      rw [List.find?_cons_of_neg _ (by simp [hak]), List.find?_cons_of_neg _ (by simp [hak])]
      exact ih
    · have hb : (a.1 == uid) = false := by simpa using hau
      rw [hb]
      by_cases hak : a.1 = k
      · have hbk : (a.1 == k) = true := by simpa using hak
        show ((a :: setL L uid w).find? (fun e => e.1 == k)).map (fun e => e.2)
            = ((a :: L).find? (fun e => e.1 == k)).map (fun e => e.2)
        rw [List.find?_cons_of_pos _ (by simp [hbk]), List.find?_cons_of_pos _ (by simp [hbk])]
      · have hbk : (a.1 == k) = false := by simpa using hak
        show ((a :: setL L uid w).find? (fun e => e.1 == k)).map (fun e => e.2)
            = ((a :: L).find? (fun e => e.1 == k)).map (fun e => e.2)
        rw [List.find?_cons_of_neg _ (by simp [hbk]), List.find?_cons_of_neg _ (by simp [hbk])]
        exact ih

theorem setL_keys (L : List (String × Int)) (uid : String) (w : Int) :
    (setL L uid w).map Prod.fst = L.map Prod.fst := by
  simp only [setL, List.map_map]
  refine List.map_congr_left ?_
  intro e _
  by_cases h : e.1 = uid
  · simp [Function.comp, h]
  · simp [Function.comp, h]

/-! ## Lemmas: behaviour of the store operations on a persisted ledger -/

theorem register_user_persist (L : List (String × Int)) (uid : String) :
    register_user (persist L) uid =
      if dictMem (ledgerFields L) uid then Except.ok (persist L, false)
      else Except.ok
        (Persisted.json (Json.obj (dictSet (ledgerFields L) uid (Json.num 0))), true) := rfl

theorem update_points_persist (L : List (String × Int)) (uid : String) (δ : Int) :
    update_points (persist L) uid δ =
      if dictMem (ledgerFields L) uid then
        match dictGet (ledgerFields L) uid with
        | some (Json.num n) =>
          Except.ok (Persisted.json (Json.obj (dictSet (ledgerFields L) uid (Json.num (n + δ)))))
        | _ => Except.error "TypeError"
      else Except.ok (persist L) := rfl

theorem set_points_persist (L : List (String × Int)) (uid : String) (v : Int) :
    set_points (persist L) uid v =
      if dictMem (ledgerFields L) uid then
        Except.ok (Persisted.json (Json.obj (dictSet (ledgerFields L) uid (Json.num v))))
      else Except.ok (persist L) := rfl

/-- C3 counterexample to the universal "from any state" reading: starting
from the ledger `{u: 5}` (a state in which `u` is already registered),
calling `register_user` twice yields `(false, false)`, not `(true, false)`,
and leaves the entry at `5`, not `0`. -/
theorem C3_register_counterexample :
    register_user (persist [("u", 5)]) "u" = Except.ok (persist [("u", 5)], false)
    ∧ (∀ st : Persisted, register_user (persist [("u", 5)]) "u" ≠ Except.ok (st, true))
    ∧ lookupL [("u", 5)] "u" = some 5 := by
  refine ⟨rfl, ?_, rfl⟩
  intro st h
  rw [show register_user (persist [("u", 5)]) "u" = Except.ok (persist [("u", 5)], false)
    from rfl] at h
  simp at h

/-- C3 (amended): `register_user` returns `false` and performs no write
(the persisted state is returned unchanged) when the user is already a key;
otherwise it appends the user with value `0`, saves, and returns `true` — so
registering the same user twice from any state in which the user is not yet
registered returns `(true, false)` and leaves exactly one entry for that
user, with value `0`. -/
theorem C3_register_semantics (L : List (String × Int)) (uid : String) :
    (uid ∈ L.map Prod.fst → register_user (persist L) uid = Except.ok (persist L, false))
    ∧ (uid ∉ L.map Prod.fst →
        register_user (persist L) uid = Except.ok (persist (L ++ [(uid, 0)]), true)
        ∧ register_user (persist (L ++ [(uid, 0)])) uid
            = Except.ok (persist (L ++ [(uid, 0)]), false)
        ∧ (L ++ [(uid, 0)]).countP (fun e : String × Int => e.1 == uid) = 1
        ∧ lookupL (L ++ [(uid, 0)]) uid = some 0) := by
  constructor
  · intro h
    rw [register_user_persist, if_pos ((dictMem_ledger_iff L uid).mpr h)]
  · intro h
    have hmem : dictMem (ledgerFields L) uid = false := dictMem_ledger_false L uid h
    have hmem' : dictMem (ledgerFields (L ++ [(uid, 0)])) uid = true :=
      (dictMem_ledger_iff _ uid).mpr (by simp)
    refine ⟨?_, ?_, ?_, lookupL_append_absent L uid 0 h⟩
    · rw [register_user_persist, if_neg (by simp [hmem]),
        dictSet_ledger_absent L uid 0 hmem]
      rfl
    · rw [register_user_persist, if_pos hmem']
    · rw [List.countP_append]
      have h0 : L.countP (fun e : String × Int => e.1 == uid) = 0 := by
        refine List.countP_eq_zero.mpr ?_
        intro e he hk
        exact h (List.mem_map.mpr ⟨e, he, by simpa using hk⟩)
      rw [h0]
      simp

/-- C3 witness: the amended theorem applied to the empty ledger and user
`"u"`: double registration from a `u`-free state returns `(true, false)` and
stores exactly one `u` entry, with value `0`. -/
theorem C3_register_semantics_witness :
    register_user (persist []) "u" = Except.ok (persist [("u", 0)], true)
    ∧ register_user (persist [("u", 0)]) "u" = Except.ok (persist [("u", 0)], false)
    ∧ ([("u", 0)] : List (String × Int)).countP (fun e => e.1 == "u") = 1
    ∧ lookupL [("u", 0)] "u" = some 0 := by
  have h := (C3_register_semantics [] "u").2 (by decide)
  exact ⟨h.1, h.2.1, h.2.2.1, h.2.2.2⟩

/-- C4: `update_points` maps a present user to its old points plus the delta
and leaves an absent user's ledger entirely unchanged (the very same state is
returned, no write); `set_points` overwrites a present user's points and is
the same silent no-op when absent; in the present case the key sequence is
unchanged and every other user keeps its value, and in the absent case the
lookup stays absent. -/
theorem C4_update_set_semantics (L : List (String × Int)) (uid : String) (p δ v : Int)
    (hnd : (L.map Prod.fst).Nodup) :
    ((uid, p) ∈ L →
      update_points (persist L) uid δ = Except.ok (persist (setL L uid (p + δ)))
      ∧ set_points (persist L) uid v = Except.ok (persist (setL L uid v))
      ∧ lookupL (setL L uid (p + δ)) uid = some (p + δ)
      ∧ lookupL (setL L uid v) uid = some v
      ∧ (∀ k, k ≠ uid → lookupL (setL L uid (p + δ)) k = lookupL L k
          ∧ lookupL (setL L uid v) k = lookupL L k)
      ∧ (setL L uid (p + δ)).map Prod.fst = L.map Prod.fst
      ∧ (setL L uid v).map Prod.fst = L.map Prod.fst)
    ∧ (uid ∉ L.map Prod.fst →
        update_points (persist L) uid δ = Except.ok (persist L)
        ∧ set_points (persist L) uid v = Except.ok (persist L)
        ∧ lookupL L uid = Option.none) := by
  constructor
  · intro hmem
    have hkey : uid ∈ L.map Prod.fst := List.mem_map.mpr ⟨(uid, p), hmem, rfl⟩
    have hm : dictMem (ledgerFields L) uid = true := (dictMem_ledger_iff L uid).mpr hkey
    have hget : dictGet (ledgerFields L) uid = some (Json.num p) :=
      dictGet_ledger_present L uid p hnd hmem
    refine ⟨?_, ?_, lookupL_setL_self L uid (p + δ) hkey, lookupL_setL_self L uid v hkey,
      fun k hk => ⟨lookupL_setL_other L uid k (p + δ) hk, lookupL_setL_other L uid k v hk⟩,
      setL_keys L uid (p + δ), setL_keys L uid v⟩
    · rw [update_points_persist, if_pos hm, hget]
      show Except.ok (Persisted.json (Json.obj (dictSet (ledgerFields L) uid
        (Json.num (p + δ))))) = _
      rw [dictSet_ledger_present L uid (p + δ) hm]
      rfl
    · rw [set_points_persist, if_pos hm, dictSet_ledger_present L uid v hm]
      rfl
  · intro h
    have hm : dictMem (ledgerFields L) uid = false := dictMem_ledger_false L uid h
    refine ⟨?_, ?_, lookupL_absent L uid h⟩
    · rw [update_points_persist, if_neg (by simp [hm])]
    · rw [set_points_persist, if_neg (by simp [hm])]

/-- C4 witness: the theorem applied to the spec's example ledger `{a:5}`:
`update(a,-3)` leaves `a` at `2`, `set(a,10)` leaves `a` at `10`, and
`update(b,…)`/`set(b,…)` on the absent `b` return the unchanged state with
`b` still absent. -/
theorem C4_update_set_semantics_witness :
    (update_points (persist [("a", 5)]) "a" (-3)
        = Except.ok (persist (setL [("a", 5)] "a" (5 + (-3))))
      ∧ lookupL (setL [("a", 5)] "a" (5 + (-3))) "a" = some (5 + (-3)))
    ∧ (update_points (persist [("a", 5)]) "b" 5 = Except.ok (persist [("a", 5)])
      ∧ set_points (persist [("a", 5)]) "b" 10 = Except.ok (persist [("a", 5)])
      ∧ lookupL [("a", 5)] "b" = Option.none)
    ∧ (set_points (persist [("a", 5)]) "a" 10 = Except.ok (persist (setL [("a", 5)] "a" 10))
      ∧ lookupL (setL [("a", 5)] "a" 10) "a" = some 10) := by
  have h1 := (C4_update_set_semantics [("a", 5)] "a" 5 (-3) 10 (by decide)).1 (by decide)
  have h2 := (C4_update_set_semantics [("a", 5)] "b" 0 5 10 (by decide)).2 (by decide)
  exact ⟨⟨h1.1, h1.2.2.1⟩, h2, ⟨h1.2.1, h1.2.2.2.1⟩⟩

/-- C5 counterexample: a flat JSON object with a non-integer value —
`{"a": "x"}` — is accepted by the upload handler and fully overwrites the
persisted ledger, where the claim requires it to be rejected with the ledger
left untouched. -/
theorem C5_upload_counterexample :
    uploaded_file_handler (persist [("b", 1)]) (UploadDoc.parsed (Json.obj [("a", Json.str "x")]))
      = (Persisted.json (Json.obj [("a", Json.str "x")]), true)
    ∧ Persisted.json (Json.obj [("a", Json.str "x")]) ≠ persist [("b", 1)]
    ∧ isNum (Json.str "x") = false := by
  refine ⟨rfl, ?_, rfl⟩
  intro h
  rw [show persist [("b", 1)] = Persisted.json (Json.obj [("b", Json.num 1)]) from rfl] at h
  simp at h

/-- C5 (amended): the upload path accepts a payload and fully overwrites the
persisted ledger exactly when the payload parses to a JSON object — any
object, with no validation of its values (non-integer and nested values are
accepted too); a payload that is not an object (an array, a scalar) or does
not parse is rejected and the existing ledger is left untouched. -/
theorem C5_upload_validation (st : Persisted) (v : Json)
    (fields : List (String × Json)) :
    uploaded_file_handler st (UploadDoc.parsed (Json.obj fields))
      = (Persisted.json (Json.obj fields), true)
    ∧ ((∀ fs, v ≠ Json.obj fs) → uploaded_file_handler st (UploadDoc.parsed v) = (st, false))
    ∧ uploaded_file_handler st UploadDoc.invalid = (st, false) := by
  refine ⟨rfl, ?_, rfl⟩
  intro hv
  cases v with
  | null => rfl
  | bool b => rfl
  | num n => rfl
  | str s => rfl
  | arr elts => rfl
  | obj fs => exact absurd rfl (hv fs)

/-- C5 witness: the amended theorem applied to a concrete prior state, the
array payload `[1,2,3]` of the spec's import-validation example (rejected,
state untouched), and a concrete object payload (accepted verbatim). -/
theorem C5_upload_validation_witness :
    uploaded_file_handler (persist [("b", 1)]) (UploadDoc.parsed (Json.obj [("c", Json.num 2)]))
      = (Persisted.json (Json.obj [("c", Json.num 2)]), true)
    ∧ uploaded_file_handler (persist [("b", 1)])
        (UploadDoc.parsed (Json.arr [Json.num 1, Json.num 2, Json.num 3]))
      = (persist [("b", 1)], false) :=
  ⟨(C5_upload_validation (persist [("b", 1)]) (Json.arr [Json.num 1, Json.num 2, Json.num 3])
      [("c", Json.num 2)]).1,
   (C5_upload_validation (persist [("b", 1)]) (Json.arr [Json.num 1, Json.num 2, Json.num 3])
      [("c", Json.num 2)]).2.1 (fun _ h => Json.noConfusion h)⟩

/-- C6 counterexample: the persisted content `[1,2,3]` is valid JSON but not
an object of string keys to integer values — malformed in the claim's sense —
yet `load_data` returns it as a value instead of surfacing a corruption
error. -/
theorem C6_load_counterexample :
    load_data (Persisted.json (Json.arr [Json.num 1, Json.num 2, Json.num 3]))
      = Except.ok (Json.arr [Json.num 1, Json.num 2, Json.num 3])
    ∧ (∀ e, load_data (Persisted.json (Json.arr [Json.num 1, Json.num 2, Json.num 3]))
        ≠ Except.error e) := by
  refine ⟨rfl, ?_⟩
  intro e h
  rw [show load_data (Persisted.json (Json.arr [Json.num 1, Json.num 2, Json.num 3]))
    = Except.ok (Json.arr [Json.num 1, Json.num 2, Json.num 3]) from rfl] at h
  cases h

/-- C6 (amended): `load_data` returns the empty mapping — not an error —
when no persisted state exists yet; it surfaces a corruption error exactly
when the persisted content is not valid JSON; persisted content that is
valid JSON of any shape (even when it is not an object of string keys to
integer values) is returned as a value without error. -/
theorem C6_load_semantics :
    load_data Persisted.missing = Except.ok (Json.obj [])
    ∧ (∀ v, load_data (Persisted.json v) = Except.ok v)
    ∧ (∀ st, (∃ e, load_data st = Except.error e) ↔ st = Persisted.invalidText) := by
  refine ⟨rfl, fun v => rfl, ?_⟩
  intro st
  constructor
  · rintro ⟨e, he⟩
    cases st with
    | missing => cases he
    | invalidText => rfl
    | json v => cases he
  · rintro rfl
    exact ⟨"JSONDecodeError", rfl⟩

/-- C7: saving any ledger and loading it back succeeds and returns the very
document that was saved, which decodes back to exactly the original list of
key-value pairs (so the round-tripped mapping is equal to the original,
order included — in particular, equal as a set of key-value pairs). -/
theorem C7_save_load_roundtrip (L : List (String × Int)) :
    load_data (save_data (ledgerJson L)) = Except.ok (ledgerJson L)
    ∧ decodeLedger (ledgerJson L) = some L := by
  refine ⟨rfl, ?_⟩
  induction L with
  | nil => rfl
  | cons a L ih =>
    have ih' : decodeFields (ledgerFields L) = some L := ih
    show (decodeFields (ledgerFields L)).map (fun M => (a.1, a.2) :: M) = some (a :: L)
    rw [ih']
    rfl

/-- C8 counterexample: from a state satisfying the ledger invariant, the
bulk-replace (upload) path accepts the object `{"": "x"}` and persists it,
and the resulting state violates the invariant (its key is empty and its
value is not an integer). -/
theorem C8_invariant_counterexample :
    uploaded_file_handler (persist [("a", 1)]) (UploadDoc.parsed (Json.obj [("", Json.str "x")]))
      = (Persisted.json (Json.obj [("", Json.str "x")]), true)
    ∧ Inv (persist [("a", 1)])
    ∧ ¬ Inv (Persisted.json (Json.obj [("", Json.str "x")])) := by
  refine ⟨rfl, ⟨[("a", Json.num 1)], rfl, by decide, ?_⟩, ?_⟩
  · intro e he
    rcases List.mem_singleton.mp he with rfl
    exact ⟨by decide, rfl⟩
  · rintro ⟨d, hd, _, hall⟩
    injection hd with hd
    injection hd with hd
    subst hd
    exact (hall ("", Json.str "x") (List.mem_singleton.mpr rfl)).1 rfl

/-- Setting `data[k] = Json.num w` keeps the ledger invariant on an object's fields
when the key is non-empty. -/
theorem InvDict_dictSet {d : List (String × Json)} (h : InvDict d) {uid : String}
    (huid : uid ≠ "") (w : Int) : InvDict (dictSet d uid (Json.num w)) := by
  obtain ⟨hnd, hall⟩ := h
  rcases hm : dictMem d uid with _ | _
  · -- append branch
    have hnotmem : uid ∉ d.map Prod.fst := by
      intro hmem
      obtain ⟨e, he, hke⟩ := List.mem_map.mp hmem
      have : dictMem d uid = true :=
        List.any_eq_true.mpr ⟨e, he, by simpa using hke⟩
      rw [hm] at this
      cases this
    constructor
    · rw [show dictSet d uid (Json.num w) = d ++ [(uid, Json.num w)] by
        simp [dictSet, hm]]
      rw [List.map_append, List.nodup_append]
      exact ⟨hnd, List.nodup_singleton uid, by simpa using hnotmem⟩
    · intro e he
      rw [show dictSet d uid (Json.num w) = d ++ [(uid, Json.num w)] by
        simp [dictSet, hm]] at he
      rcases List.mem_append.mp he with he | he
      · exact hall e he
      · rcases List.mem_singleton.mp he with rfl
        exact ⟨huid, rfl⟩
  · -- overwrite branch
    have hset : dictSet d uid (Json.num w)
        = d.map (fun e => if e.1 == uid then (uid, Json.num w) else e) := by
      simp [dictSet, hm]
    constructor
    · rw [hset, List.map_map]
      have : (Prod.fst ∘ fun e : String × Json => if e.1 == uid then (uid, Json.num w) else e)
          = Prod.fst := by
        funext e
        by_cases hk : e.1 = uid
        · simp [Function.comp, hk]
        · simp [Function.comp, hk]
      rw [this]
      exact hnd
    · intro e he
      rw [hset] at he
      obtain ⟨f, hf, rfl⟩ := List.mem_map.mp he
      by_cases hk : f.1 = uid
      · simp only [hk, beq_self_eq_true, if_true]
        exact ⟨huid, rfl⟩
      · have hk' : (f.1 == uid) = false := by simpa using hk
        simp only [hk', Bool.false_eq_true, if_false]
        exact hall f hf

/-- C8 (amended): `register_user` with a non-empty user id, `update_points`
and `set_points` preserve the ledger invariant — unique keys, non-empty
keys, every value a single integer — whenever they succeed; the bulk-replace
path does not enforce this invariant (see the counterexample): it only
guarantees that the accepted payload is a JSON object. -/
theorem C8_invariant_preservation (st : Persisted) (uid : String) (δ v : Int)
    (hInv : Inv st) (huid : uid ≠ "") :
    (∀ st' b, register_user st uid = Except.ok (st', b) → Inv st')
    ∧ (∀ st', update_points st uid δ = Except.ok st' → Inv st')
    ∧ (∀ st', set_points st uid v = Except.ok st' → Inv st') := by
  obtain ⟨d, rfl, hd⟩ := hInv
  refine ⟨?_, ?_, ?_⟩
  · intro st' b h
    rcases hm : dictMem d uid with _ | _
    · rw [show register_user (Persisted.json (Json.obj d)) uid
          = Except.ok (Persisted.json (Json.obj (dictSet d uid (Json.num 0))), true) by
        show (if dictMem d uid then _ else _) = _
        rw [hm]
        rfl] at h
      injection h with h
      rw [← (Prod.mk.injEq _ _ _ _).mp h |>.1]
      exact ⟨_, rfl, InvDict_dictSet hd huid 0⟩
    · rw [show register_user (Persisted.json (Json.obj d)) uid
          = Except.ok (Persisted.json (Json.obj d), false) by
        show (if dictMem d uid then _ else _) = _
        rw [hm]
        rfl] at h
      injection h with h
      rw [← (Prod.mk.injEq _ _ _ _).mp h |>.1]
      exact ⟨d, rfl, hd⟩
  · intro st' h
    rcases hm : dictMem d uid with _ | _
    · rw [show update_points (Persisted.json (Json.obj d)) uid δ
          = Except.ok (Persisted.json (Json.obj d)) by
        show (if dictMem d uid then _ else _) = _
        rw [hm]
        rfl] at h
      injection h with h
      rw [← h]
      exact ⟨d, rfl, hd⟩
    · have hstep : update_points (Persisted.json (Json.obj d)) uid δ
          = match dictGet d uid with
            | some (Json.num n) =>
              Except.ok (Persisted.json (Json.obj (dictSet d uid (Json.num (n + δ)))))
            | _ => Except.error "TypeError" := by
        show (if dictMem d uid then _ else _) = _
        rw [hm]
        rfl
      rw [hstep] at h
      rcases hget : dictGet d uid with _ | val
      · rw [hget] at h
        cases h
      · rcases val with _ | b | n | sv | elts | fields
        case num =>
          rw [hget] at h
          injection h with h
          rw [← h]
          exact ⟨_, rfl, InvDict_dictSet hd huid (n + δ)⟩
        all_goals
          rw [hget] at h
          cases h
  · intro st' h
    rcases hm : dictMem d uid with _ | _
    · rw [show set_points (Persisted.json (Json.obj d)) uid v
          = Except.ok (Persisted.json (Json.obj d)) by
        show (if dictMem d uid then _ else _) = _
        rw [hm]
        rfl] at h
      injection h with h
      rw [← h]
      exact ⟨d, rfl, hd⟩
    · rw [show set_points (Persisted.json (Json.obj d)) uid v
          = Except.ok (Persisted.json (Json.obj (dictSet d uid (Json.num v)))) by
        show (if dictMem d uid then _ else _) = _
        rw [hm]
        rfl] at h
      injection h with h
      rw [← h]
      exact ⟨_, rfl, InvDict_dictSet hd huid v⟩

/-- C8 witness: the preservation theorem applied to the invariant-satisfying
state `{a: 1}` and the fresh non-empty user `"b"`: the state produced by
`register_user` satisfies the invariant. -/
theorem C8_invariant_preservation_witness :
    Inv (Persisted.json (Json.obj [("a", Json.num 1), ("b", Json.num 0)])) :=
  (C8_invariant_preservation (persist [("a", 1)]) "b" 0 0
      ⟨[("a", Json.num 1)], rfl,
        ⟨by decide, fun e he => by
          rcases List.mem_singleton.mp he with rfl
          exact ⟨by decide, rfl⟩⟩⟩
      (by decide)).1
    (Persisted.json (Json.obj [("a", Json.num 1), ("b", Json.num 0)])) true rfl

/-! ## Lemmas: the password gate -/

theorem sha256_hex_length (s : String) : (sha256_hex s).length = 64 := by
  simp [sha256_hex, sha256Words, hexWord32, String.length]

/-- C9: `verify_password` returns `true` exactly when the lowercase
hexadecimal SHA-256 digest of the input equals the stored hash as a string;
and it returns `false` for every input when the stored hash is empty or
absent. -/
theorem C9_verify_password (input stored : String) :
    (verify_password (some stored) input = true ↔ sha256_hex input = stored)
    ∧ verify_password (some "") input = false
    ∧ verify_password Option.none input = false := by
  refine ⟨?_, ?_, rfl⟩
  · by_cases hs : stored = ""
    · subst hs
      constructor
      · intro h
        rw [show verify_password (some "") input = false from by
          simp [verify_password]] at h
        cases h
      · intro h
        have h64 := sha256_hex_length input
        rw [h] at h64
        cases h64
    · rw [show verify_password (some stored) input = (sha256_hex input == stored) from by
        simp [verify_password, hs]]
      exact beq_iff_eq
  · simp [verify_password]

end PokerPoint
